import Mathlib

/-!
# Design-Pattern-In-C++ : the polymorphic reducer (`Liskov.cpp`) and the singleton (`SIngleton/main.cpp`)

Shallow embedding of the two programs.

* An `int` is an `Int`; `int` addition is `wrapInt (a + b)`, the 32-bit two's-complement
  representative of the exact sum.
* The array a range `[begin, end)` points into is a `List Int`; a pointer is an index into it
  (`end` may be one past the last element).  Dereferencing a pointer outside the array is a
  `Fault.badRead`.
* The two `while` loops are recursive functions on an iteration budget.  `ResultOf` runs the
  loop with budget `mem.length + 1`, which is never exhausted (`Operation_loop_budget`,
  `BoolOperation_loop_budget`): every iteration but the last dereferences a fresh in-bounds
  address.
* Every run records the addresses it dereferenced, in order (the `trace`).
* For `main` and the two classes of the repository, which do not use `std::cout` themselves,
  `cout` is the `String` written so far, in the default format.  For an arbitrary `IOperation`
  (`Liskov.Stateful`) the virtual call also gets and returns the state of `std::cout`, and the
  insertions are those of a library given as a parameter.
-/

namespace Cpp

/-! ## `int` -/

def INT_MIN : Int := -2147483648

def INT_MAX : Int := 2147483647

/-- The value fits in a 32-bit `int`. -/
def fitsInt (z : Int) : Prop := INT_MIN ≤ z ∧ z ≤ INT_MAX

instance (z : Int) : Decidable (fitsInt z) := by
  unfold fitsInt; infer_instance

/-- Two's-complement representative of `z` in `[-2^31, 2^31 - 1]`. -/
def wrapInt (z : Int) : Int := (z + 2147483648) % 4294967296 - 2147483648

/-- Addition of two `int`s: `a + b` in the source. -/
def intAdd (a b : Int) : Int := wrapInt (a + b)

/-- The text `cout << n` writes for an `int`. -/
def showInt (n : Int) : String := toString n

end Cpp

/-! # `Liskov.cpp` -/

namespace Liskov

open Cpp

/-! ## `ReturnType = variant<int, bool>` -/

inductive ReturnType where
  | int (v : Int)
  | bool (b : Bool)
  deriving DecidableEq, Repr

/-- `holds_alternative<int>(r)`. -/
def holds_alternative_int : ReturnType → Bool
  | .int _ => true
  | .bool _ => false

/-- `holds_alternative<bool>(r)`. -/
def holds_alternative_bool : ReturnType → Bool
  | .int _ => false
  | .bool _ => true

/-- Ways a run can go wrong. -/
inductive Fault where
  /-- a pointer outside the array was dereferenced -/
  | badRead
  /-- the iteration budget of a loop was exhausted -/
  | budget
  /-- `get<T>` on a variant holding the other alternative -/
  | badVariantAccess
  /-- an insertion into `std::cout` threw -/
  | streamFailure
  deriving DecidableEq, Repr

/-- `get<int>(r)`. -/
def get_int : ReturnType → Except Fault Int
  | .int v => .ok v
  | .bool _ => .error .badVariantAccess

/-- `get<bool>(r)`. -/
def get_bool : ReturnType → Except Fault Bool
  | .int _ => .error .badVariantAccess
  | .bool b => .ok b

/-- What a call of `ResultOf` yields: the returned variant and the addresses dereferenced,
in order. -/
structure Run where
  value : ReturnType
  trace : List Nat
  deriving DecidableEq, Repr

/-- `struct IOperation`: the one virtual member function. -/
structure IOperation where
  ResultOf : List Int → Nat → Nat → Except Fault Run

/-- Number of elements `BoolOperation::ResultOf` looks at: up to and including the first
non-positive one. -/
def examined : List Int → Nat
  | [] => 0
  | x :: xs => if x ≤ 0 then 1 else examined xs + 1

/-- The elements of the range `[begin, end)` of `mem`. -/
def range (mem : List Int) (begin end_ : Nat) : List Int :=
  (mem.drop begin).take (end_ - begin)

/-! ## `class Operation` -/

namespace Operation

/-- The loop of `Operation::ResultOf`:
`while (begin != end) { sum += *begin; ++begin; } return sum;`. -/
def loop (mem : List Int) (end_ : Nat) : Nat → Nat → Int → List Nat → Except Fault Run
  | 0, _, _, _ => .error .budget
  | fuel + 1, begin, sum, trace =>
    if begin != end_ then
      match mem[begin]? with
      | none => .error .badRead
      | some x => loop mem end_ fuel (begin + 1) (intAdd sum x) (trace ++ [begin])
    else
      .ok ⟨.int sum, trace⟩

/-- `Operation::ResultOf(begin, end)`: `int sum = 0;` then the loop. -/
def ResultOf (mem : List Int) (begin end_ : Nat) : Except Fault Run :=
  loop mem end_ (mem.length + 1) begin 0 []

end Operation

/-! ## `class BoolOperation` -/

namespace BoolOperation

/-- The loop of `BoolOperation::ResultOf`:
`while (begin != end) { if (*begin <= 0) return false; ++begin; } return true;`. -/
def loop (mem : List Int) (end_ : Nat) : Nat → Nat → List Nat → Except Fault Run
  | 0, _, _ => .error .budget
  | fuel + 1, begin, trace =>
    if begin != end_ then
      match mem[begin]? with
      | none => .error .badRead
      | some x =>
        if x ≤ 0 then .ok ⟨.bool false, trace ++ [begin]⟩
        else loop mem end_ fuel (begin + 1) (trace ++ [begin])
    else
      .ok ⟨.bool true, trace⟩

/-- `BoolOperation::ResultOf(begin, end)`. -/
def ResultOf (mem : List Int) (begin end_ : Nat) : Except Fault Run :=
  loop mem end_ (mem.length + 1) begin []

end BoolOperation

/-- An `Operation` object seen through `IOperation*`. -/
def op : IOperation := ⟨Operation.ResultOf⟩

/-- A `BoolOperation` object seen through `IOperation*`. -/
def boolOp : IOperation := ⟨BoolOperation.ResultOf⟩

/-- `void Operate(IOperation *func)`; `cout` is the text written so far, `endl` is a newline. -/
def Operate (func : IOperation) (cout : String) : Except Fault String :=
  let arr : List Int := [1, 2, 3, 4, 5]
  match func.ResultOf arr 0 5 with
  | .error e => .error e
  | .ok result =>
    if holds_alternative_int result.value then
      match get_int result.value with
      | .error e => .error e
      | .ok n => .ok (cout ++ "Result is an int: " ++ showInt n ++ "\n")
    else if holds_alternative_bool result.value then
      match get_bool result.value with
      | .error e => .error e
      | .ok b => .ok (cout ++ "Result is a bool: " ++ (if b then "true" else "false") ++ "\n")
    else
      .ok cout

/-- `int main()` of `Liskov.cpp`: the text on standard output. -/
def main : Except Fault String :=
  match Operate op "" with
  | .error e => .error e
  | .ok cout => Operate boolOp cout

/-- The line the caller of `ResultOf` is to write for a result, by its tag:
`Result is an int: N`, `Result is a bool: true` or `Result is a bool: false`. -/
def renderSpec : ReturnType → String
  | .int n => "Result is an int: " ++ showInt n ++ "\n"
  | .bool true => "Result is a bool: true\n"
  | .bool false => "Result is a bool: false\n"

/-! ## `Operate` on an arbitrary `IOperation`

`func->ResultOf(arr, arr + 5)` is a virtual call: the code behind it may read and change the
object it is called on, and it may use the global `std::cout` (write to it, change its format
state) before `Operate` prints.  Here the object has a state `σ`, `std::cout` has a state `S`,
and a call of `ResultOf` yields both states after it along with the result.  The insertions
`Operate` makes are those of the library, given as an `OStream S`. -/

namespace Stateful

/-- The part of the iostream library `Operate` uses, on a stream with state `S`:
`cout << "text"`, `cout << n` for an `int`, and `cout << endl`.  An insertion may throw. -/
structure OStream (S : Type) where
  putStr : S → String → Except Fault S
  putInt : S → Int → Except Fault S
  endl : S → Except Fault S

/-- `struct IOperation`, for an object with state `σ` in a process whose `std::cout` has
state `S`. -/
structure IOperation (σ S : Type) where
  ResultOf : σ → S → List Int → Nat → Nat → Except Fault (Run × σ × S)

/-- `void Operate(IOperation *func)` on the object `self` with `std::cout` in state `cout`:
the stream and the object after the call. -/
def Operate {σ S : Type} (lib : OStream S) (func : IOperation σ S) (self : σ) (cout : S) :
    Except Fault (S × σ) :=
  let arr : List Int := [1, 2, 3, 4, 5]
  match func.ResultOf self cout arr 0 5 with
  | .error e => .error e
  | .ok (result, self1, cout1) =>
    if holds_alternative_int result.value then
      match get_int result.value with
      | .error e => .error e
      | .ok n =>
        match lib.putStr cout1 "Result is an int: " with
        | .error e => .error e
        | .ok cout2 =>
          match lib.putInt cout2 n with
          | .error e => .error e
          | .ok cout3 =>
            match lib.endl cout3 with
            | .error e => .error e
            | .ok cout4 => .ok (cout4, self1)
    else if holds_alternative_bool result.value then
      match get_bool result.value with
      | .error e => .error e
      | .ok b =>
        match lib.putStr cout1 "Result is a bool: " with
        | .error e => .error e
        | .ok cout2 =>
          match lib.putStr cout2 (if b then "true" else "false") with
          | .error e => .error e
          | .ok cout3 =>
            match lib.endl cout3 with
            | .error e => .error e
            | .ok cout4 => .ok (cout4, self1)
    else
      .ok (cout1, self1)

/-- The insertions the caller of `ResultOf` is to make for a result, by its tag: the text
`Result is an int: `, the `int` and `endl`; or the text `Result is a bool: `, the text `true`
or `false`, and `endl`. -/
def insertLine {S : Type} (lib : OStream S) (cout : S) : ReturnType → Except Fault S
  | .int n =>
    (lib.putStr cout "Result is an int: ").bind fun c2 => (lib.putInt c2 n).bind lib.endl
  | .bool true =>
    (lib.putStr cout "Result is a bool: ").bind fun c2 => (lib.putStr c2 "true").bind lib.endl
  | .bool false =>
    (lib.putStr cout "Result is a bool: ").bind fun c2 => (lib.putStr c2 "false").bind lib.endl

/-- Number base of a stream (`ios_base::basefield`). -/
inductive Base where
  | dec
  | hex
  | oct
  deriving DecidableEq, Repr

/-- A `std::cout` whose state is the text written so far and the number base. -/
structure Cout where
  text : String
  base : Base
  deriving DecidableEq, Repr

/-- The text `cout << n` writes for an `int` in the given base; in base 16 and 8 the value is
written as the unsigned 32-bit number with the same bits. -/
def showIntIn : Base → Int → String
  | .dec, n => showInt n
  | .hex, n => String.mk (Nat.toDigits 16 (n % 4294967296).toNat)
  | .oct, n => String.mk (Nat.toDigits 8 (n % 4294967296).toNat)

/-- The library on `Cout`: insertions append to the text, an `int` in the current base. -/
def stdCout : OStream Cout where
  putStr c t := .ok { c with text := c.text ++ t }
  putInt c n := .ok { c with text := c.text ++ showIntIn c.base n }
  endl c := .ok { c with text := c.text ++ "\n" }

/-- The line for a result on a stream in the given base. -/
def renderIn (base : Base) : ReturnType → String
  | .int n => "Result is an int: " ++ showIntIn base n ++ "\n"
  | .bool true => "Result is a bool: true\n"
  | .bool false => "Result is a bool: false\n"

/-- An object without state that does not use `std::cout`, as in `Liskov.IOperation`. -/
def ofPure {S : Type} (func : Liskov.IOperation) : IOperation Unit S :=
  ⟨fun _ cout mem begin end_ =>
    match func.ResultOf mem begin end_ with
    | .error e => .error e
    | .ok r => .ok (r, (), cout)⟩

/-- An object that keeps the list of the calls of `ResultOf` made on it (array, `begin`,
`end`), latest last, answers as `func` does and does not use `std::cout`. -/
def logged {S : Type} (func : Liskov.IOperation) :
    IOperation (List (List Int × Nat × Nat)) S :=
  ⟨fun calls cout mem begin end_ =>
    match func.ResultOf mem begin end_ with
    | .error e => .error e
    | .ok r => .ok (r, calls ++ [(mem, begin, end_)], cout)⟩

/-- An `IOperation` that sums like `Operation` and reports on `std::cout` first:
`cout << "summing" << endl; return Operation::ResultOf(begin, end);`. -/
def chattyOp : IOperation Unit Cout :=
  ⟨fun _ cout mem begin end_ =>
    match Operation.ResultOf mem begin end_ with
    | .error e => .error e
    | .ok r => .ok (r, (), { cout with text := cout.text ++ "summing" ++ "\n" })⟩

/-- An `IOperation` that sums like `Operation` and switches `std::cout` to base 16 first:
`cout << hex; return Operation::ResultOf(begin, end);`. -/
def hexOp : IOperation Unit Cout :=
  ⟨fun _ cout mem begin end_ =>
    match Operation.ResultOf mem begin end_ with
    | .error e => .error e
    | .ok r => .ok (r, (), { cout with base := Base.hex })⟩

end Stateful

end Liskov

/-! # `SIngleton/main.cpp` -/

namespace Singleton

open Cpp

/-- `class htb`: an object without data members. -/
structure htb where
  deriving DecidableEq, Repr

/-- `int htb::sum(int a, int b) { return a + b; }`. -/
def htb.sum (_this : htb) (a b : Int) : Int := intAdd a b

/-- Storage an `htb` object can occupy. -/
inductive Loc where
  /-- the static data member `htb::limit` -/
  | htb_limit
  /-- any other storage -/
  | other (n : Nat)
  deriving DecidableEq, Repr

/-- Ways the singleton program can go wrong. -/
inductive Fault where
  /-- a reference to storage holding no object was used -/
  | dangling
  deriving DecidableEq, Repr

/-- State of the process: the `htb` objects alive, by storage, and the text written to
standard output. -/
structure Process where
  objects : Loc → Option htb
  cout : String

/-- The process before any static object is constructed. -/
def Process.start : Process := ⟨fun _ => none, ""⟩

/-- Static initialization, `htb htb::limit;`: the default constructor runs once, on the static
member. -/
def staticInit (p : Process) : Process :=
  { p with objects := fun l => if l = Loc.htb_limit then some htb.mk else p.objects l }

/-- `htb & htb::Limit() { return limit; }`: the reference returned and the state after the
call. -/
def htb.Limit (p : Process) : Loc × Process := (Loc.htb_limit, p)

/-- The references returned by `n` calls of `htb::Limit()` in succession, and the state after
them. -/
def LimitCalls : Nat → Process → List Loc × Process
  | 0, p => ([], p)
  | n + 1, p =>
    let r := htb.Limit p
    let rest := LimitCalls n r.2
    (r.1 :: rest.1, rest.2)

/-- `int main()` of `SIngleton/main.cpp`:
`htb &test = htb::Limit(); cout << test.sum(3, 4);`. -/
def main (p : Process) : Except Fault Process :=
  let r := htb.Limit p
  match r.2.objects r.1 with
  | none => .error .dangling
  | some test => .ok { r.2 with cout := r.2.cout ++ showInt (test.sum 3 4) }

/-- The whole program: static initialization, then `main`. -/
def run : Except Fault Process := main (staticInit Process.start)

end Singleton

/-! # Proofs -/

namespace Cpp

/-- An exact result that fits in an `int` is not changed by wraparound. -/
theorem wrapInt_of_fits {z : Int} (h : fitsInt z) : wrapInt z = z := by
  unfold fitsInt INT_MIN INT_MAX at h
  unfold wrapInt
  omega

end Cpp

namespace Liskov

open Cpp

/-! ## Facts about `int` and ranges -/

theorem range_self (mem : List Int) (begin : Nat) : range mem begin begin = [] := by
  simp [range]

theorem range_cons (mem : List Int) (begin n : Nat) (h : begin + (n + 1) ≤ mem.length) :
    ∃ x, mem[begin]? = some x ∧
      range mem begin (begin + (n + 1)) = x :: range mem (begin + 1) (begin + 1 + n) := by
  have hlt : begin < mem.length := by omega
  refine ⟨mem[begin], List.getElem?_eq_getElem hlt, ?_⟩
  unfold range
  rw [List.drop_eq_getElem_cons hlt]
  have e1 : begin + (n + 1) - begin = n + 1 := by omega
  have e2 : begin + 1 + n - (begin + 1) = n := by omega
  rw [e1, e2, List.take_succ_cons]

theorem range_full (xs : List Int) : range xs 0 xs.length = xs := by
  simp [range]

theorem range_length (mem : List Int) (begin end_ : Nat) (hem : end_ ≤ mem.length) :
    (range mem begin end_).length = end_ - begin := by
  simp [range]; omega

/-- Left fold of `int` addition is the exact sum when every running partial sum fits. -/
theorem foldl_intAdd_of_fits (xs : List Int) (acc : Int)
    (h : ∀ k, k ≤ xs.length → fitsInt (acc + (xs.take k).sum)) :
    xs.foldl intAdd acc = acc + xs.sum := by
  induction xs generalizing acc with
  | nil => simp
  | cons x xs ih =>
    have h1 : fitsInt (acc + x) := by
      have := h 1 (by simp)
      simpa using this
    have hstep : intAdd acc x = acc + x := wrapInt_of_fits h1
    rw [List.foldl_cons, hstep, ih, List.sum_cons, add_assoc]
    intro k hk
    have := h (k + 1) (by simpa using hk)
    simpa [List.take_succ_cons, add_assoc] using this

/-! ## The loop of `Operation::ResultOf` -/

/-- With a budget larger than the distance to `end`, the loop adds up the range from left to
right and dereferences exactly its addresses, in order. -/
theorem Operation_loop_spec (mem : List Int) (n : Nat) :
    ∀ (fuel begin : Nat) (sum : Int) (trace : List Nat),
      begin + n ≤ mem.length → n < fuel →
      Operation.loop mem (begin + n) fuel begin sum trace =
        .ok ⟨.int ((range mem begin (begin + n)).foldl intAdd sum),
             trace ++ List.range' begin n⟩ := by
  induction n with
  | zero =>
    intro fuel begin sum trace _ hf
    obtain ⟨f, rfl⟩ : ∃ f, fuel = f + 1 := ⟨fuel - 1, by omega⟩
    simp [Operation.loop, range_self]
  | succ n ih =>
    intro fuel begin sum trace hb hf
    obtain ⟨f, rfl⟩ : ∃ f, fuel = f + 1 := ⟨fuel - 1, by omega⟩
    obtain ⟨x, hx, hr⟩ := range_cons mem begin n hb
    have hne : (begin != begin + (n + 1)) = true := by simp
    have e : begin + (n + 1) = begin + 1 + n := by omega
    rw [Operation.loop, if_pos hne, hx, hr]
    simp only
    rw [e, ih f (begin + 1) (intAdd sum x) (trace ++ [begin]) (by omega) (by omega)]
    simp [List.range'_succ]

/-- The budget `ResultOf` gives the loop is never exhausted: any two budgets that cover the
rest of the array give the same run. -/
theorem Operation_loop_budget (mem : List Int) (end_ : Nat) :
    ∀ (fuel fuel2 begin : Nat) (sum : Int) (trace : List Nat),
      1 ≤ fuel → mem.length + 1 ≤ fuel + begin →
      1 ≤ fuel2 → mem.length + 1 ≤ fuel2 + begin →
      Operation.loop mem end_ fuel begin sum trace =
        Operation.loop mem end_ fuel2 begin sum trace := by
  intro fuel
  induction fuel with
  | zero => intro _ _ _ _ h; omega
  | succ f ih =>
    intro fuel2 begin sum trace _ h2 h3 h4
    obtain ⟨g, rfl⟩ : ∃ g, fuel2 = g + 1 := ⟨fuel2 - 1, by omega⟩
    unfold Operation.loop
    by_cases hne : (begin != end_) = true
    · rw [if_pos hne, if_pos hne]
      cases hx : mem[begin]? with
      | none => rfl
      | some x =>
        have hlt : begin < mem.length := by
          by_contra hge
          rw [List.getElem?_eq_none (by omega)] at hx
          cases hx
        exact ih g (begin + 1) _ _ (by omega) (by omega) (by omega) (by omega)
    · rw [if_neg hne, if_neg hne]

/-! ## The loop of `BoolOperation::ResultOf` -/

theorem examined_le (xs : List Int) : examined xs ≤ xs.length := by
  induction xs with
  | nil => simp [examined]
  | cons x xs ih =>
    unfold examined
    split
    · simp
    · simpa using ih

/-- With a budget larger than the distance to `end`, the loop answers whether every element of
the range is positive and dereferences the addresses up to the first non-positive element. -/
theorem BoolOperation_loop_spec (mem : List Int) (n : Nat) :
    ∀ (fuel begin : Nat) (trace : List Nat),
      begin + n ≤ mem.length → n < fuel →
      BoolOperation.loop mem (begin + n) fuel begin trace =
        .ok ⟨.bool ((range mem begin (begin + n)).all (fun x => decide (0 < x))),
             trace ++ List.range' begin (examined (range mem begin (begin + n)))⟩ := by
  induction n with
  | zero =>
    intro fuel begin trace _ hf
    obtain ⟨f, rfl⟩ : ∃ f, fuel = f + 1 := ⟨fuel - 1, by omega⟩
    simp [BoolOperation.loop, range_self, examined]
  | succ n ih =>
    intro fuel begin trace hb hf
    obtain ⟨f, rfl⟩ : ∃ f, fuel = f + 1 := ⟨fuel - 1, by omega⟩
    obtain ⟨x, hx, hr⟩ := range_cons mem begin n hb
    have hne : (begin != begin + (n + 1)) = true := by simp
    have e : begin + (n + 1) = begin + 1 + n := by omega
    rw [BoolOperation.loop, if_pos hne, hx, hr]
    simp only
    by_cases hx0 : x ≤ 0
    · have : ¬ 0 < x := by omega
      simp [hx0, this, examined]
    · have : 0 < x := by omega
      rw [if_neg hx0, e, ih f (begin + 1) (trace ++ [begin]) (by omega) (by omega)]
      simp [hx0, this, examined, List.range'_succ]

/-- The budget `ResultOf` gives the loop is never exhausted. -/
theorem BoolOperation_loop_budget (mem : List Int) (end_ : Nat) :
    ∀ (fuel fuel2 begin : Nat) (trace : List Nat),
      1 ≤ fuel → mem.length + 1 ≤ fuel + begin →
      1 ≤ fuel2 → mem.length + 1 ≤ fuel2 + begin →
      BoolOperation.loop mem end_ fuel begin trace =
        BoolOperation.loop mem end_ fuel2 begin trace := by
  intro fuel
  induction fuel with
  | zero => intro _ _ _ h; omega
  | succ f ih =>
    intro fuel2 begin trace _ h2 h3 h4
    obtain ⟨g, rfl⟩ : ∃ g, fuel2 = g + 1 := ⟨fuel2 - 1, by omega⟩
    unfold BoolOperation.loop
    by_cases hne : (begin != end_) = true
    · rw [if_pos hne, if_pos hne]
      cases hx : mem[begin]? with
      | none => rfl
      | some x =>
        have hlt : begin < mem.length := by
          by_contra hge
          rw [List.getElem?_eq_none (by omega)] at hx
          cases hx
        simp only
        by_cases hx0 : x ≤ 0
        · rw [if_pos hx0, if_pos hx0]
        · rw [if_neg hx0, if_neg hx0]
          exact ih g (begin + 1) _ (by omega) (by omega) (by omega) (by omega)
    · rw [if_neg hne, if_neg hne]

theorem natRange_prefix (b m n : Nat) (h : m ≤ n) : List.range' b m <+: List.range' b n := by
  obtain ⟨d, rfl⟩ : ∃ d, n = m + d := ⟨n - m, by omega⟩
  exact ⟨List.range' (b + m) d, by simp [List.range'_append, Nat.add_comm]⟩

/-! ## `Operation::ResultOf` and `BoolOperation::ResultOf` on a range -/

/-- On a range inside the array, `Operation::ResultOf` returns the left-to-right `int` sum and
dereferences each address of the range once, in order. -/
theorem Operation_ResultOf_eq (mem : List Int) (begin end_ : Nat)
    (hbe : begin ≤ end_) (hem : end_ ≤ mem.length) :
    Operation.ResultOf mem begin end_ =
      .ok ⟨.int ((range mem begin end_).foldl intAdd 0), List.range' begin (end_ - begin)⟩ := by
  obtain ⟨n, rfl⟩ : ∃ n, end_ = begin + n := ⟨end_ - begin, by omega⟩
  unfold Operation.ResultOf
  rw [Operation_loop_spec mem n (mem.length + 1) begin 0 [] hem (by omega)]
  simp

/-- On a range inside the array, `BoolOperation::ResultOf` returns whether all elements are
positive and dereferences the addresses up to the first non-positive element. -/
theorem BoolOperation_ResultOf_eq (mem : List Int) (begin end_ : Nat)
    (hbe : begin ≤ end_) (hem : end_ ≤ mem.length) :
    BoolOperation.ResultOf mem begin end_ =
      .ok ⟨.bool ((range mem begin end_).all (fun x => decide (0 < x))),
           List.range' begin (examined (range mem begin end_))⟩ := by
  obtain ⟨n, rfl⟩ : ∃ n, end_ = begin + n := ⟨end_ - begin, by omega⟩
  unfold BoolOperation.ResultOf
  rw [BoolOperation_loop_spec mem n (mem.length + 1) begin [] hem (by omega)]
  simp

/-! ## The claims about `Liskov.cpp` -/

/-- C1: for every range `[begin, end)` inside an array whose running partial sums all fit in
an `int`, `Operation::ResultOf` returns the `int` alternative holding the exact arithmetic sum
of the elements of the range, having read each of its addresses once, in order. -/
theorem Operation_ResultOf_sum (mem : List Int) (begin end_ : Nat)
    (hbe : begin ≤ end_) (hem : end_ ≤ mem.length)
    (hfit : ∀ k, k ≤ end_ - begin → fitsInt ((range mem begin end_).take k).sum) :
    Operation.ResultOf mem begin end_ =
      .ok ⟨.int (range mem begin end_).sum, List.range' begin (end_ - begin)⟩ := by
  rw [Operation_ResultOf_eq mem begin end_ hbe hem, foldl_intAdd_of_fits]
  · simp
  · intro k hk
    rw [range_length mem begin end_ hem] at hk
    simpa using hfit k hk

theorem Operation_ResultOf_sum_witness :
    (1 ≤ 6 ∧ 6 ≤ [7, 1, 2, 3, 4, 5, 9].length) ∧
      Operation.ResultOf [7, 1, 2, 3, 4, 5, 9] 1 6 =
        .ok ⟨.int (range [7, 1, 2, 3, 4, 5, 9] 1 6).sum, List.range' 1 (6 - 1)⟩ :=
  ⟨by decide,
    Operation_ResultOf_sum [7, 1, 2, 3, 4, 5, 9] 1 6 (by decide) (by decide) (by decide)⟩

/-- C2: for every range `[begin, end)` inside an array, `BoolOperation::ResultOf` returns the
`bool` alternative; its value is `true` exactly when every element of the range is strictly
greater than zero, and it is `false` as soon as some element of the range is `<= 0`. -/
theorem BoolOperation_ResultOf_all_positive (mem : List Int) (begin end_ : Nat)
    (hbe : begin ≤ end_) (hem : end_ ≤ mem.length) :
    ∃ (b : Bool) (trace : List Nat),
      BoolOperation.ResultOf mem begin end_ = .ok ⟨.bool b, trace⟩ ∧
      (b = true ↔ ∀ x ∈ range mem begin end_, 0 < x) ∧
      ((∃ x ∈ range mem begin end_, x ≤ 0) → b = false) := by
  refine ⟨_, _, BoolOperation_ResultOf_eq mem begin end_ hbe hem, ?_, ?_⟩
  · simp [List.all_eq_true]
  · rintro ⟨x, hx, hx0⟩
    rw [List.all_eq_false]
    exact ⟨x, hx, by simp; omega⟩

theorem BoolOperation_ResultOf_all_positive_witness :
    (0 ≤ 3 ∧ 3 ≤ [4, 2, 0].length) ∧
    ∃ (b : Bool) (trace : List Nat),
      BoolOperation.ResultOf [4, 2, 0] 0 3 = .ok ⟨.bool b, trace⟩ ∧
      (b = true ↔ ∀ x ∈ range [4, 2, 0] 0 3, 0 < x) ∧
      ((∃ x ∈ range [4, 2, 0] 0 3, x ≤ 0) → b = false) :=
  ⟨by decide, BoolOperation_ResultOf_all_positive [4, 2, 0] 0 3 (by decide) (by decide)⟩

/-- C3: on the empty range (`begin == end`), wherever it points, `Operation::ResultOf` returns
the `int` 0 and `BoolOperation::ResultOf` returns the `bool` `true`, and neither dereferences
any address. -/
theorem ResultOf_empty (mem : List Int) (begin : Nat) :
    Operation.ResultOf mem begin begin = .ok ⟨.int 0, []⟩ ∧
    BoolOperation.ResultOf mem begin begin = .ok ⟨.bool true, []⟩ := by
  constructor
  · simp [Operation.ResultOf, Operation.loop]
  · simp [BoolOperation.ResultOf, BoolOperation.loop]

/-- C4: for every range inside an array, of any length, `Operation::ResultOf` returns a variant
holding the `int` alternative and not the `bool` one, and `BoolOperation::ResultOf` returns a
variant holding the `bool` alternative and not the `int` one. -/
theorem ResultOf_tag (mem : List Int) (begin end_ : Nat)
    (hbe : begin ≤ end_) (hem : end_ ≤ mem.length) :
    (∃ r, Operation.ResultOf mem begin end_ = .ok r ∧
      holds_alternative_int r.value = true ∧ holds_alternative_bool r.value = false) ∧
    (∃ r, BoolOperation.ResultOf mem begin end_ = .ok r ∧
      holds_alternative_bool r.value = true ∧ holds_alternative_int r.value = false) :=
  ⟨⟨_, Operation_ResultOf_eq mem begin end_ hbe hem, rfl, rfl⟩,
   ⟨_, BoolOperation_ResultOf_eq mem begin end_ hbe hem, rfl, rfl⟩⟩

theorem ResultOf_tag_witness :
    (1 ≤ 3 ∧ 3 ≤ [5, -2, 0, 8].length) ∧
    (∃ r, Operation.ResultOf [5, -2, 0, 8] 1 3 = .ok r ∧
      holds_alternative_int r.value = true ∧ holds_alternative_bool r.value = false) ∧
    (∃ r, BoolOperation.ResultOf [5, -2, 0, 8] 1 3 = .ok r ∧
      holds_alternative_bool r.value = true ∧ holds_alternative_int r.value = false) :=
  ⟨by decide, ResultOf_tag [5, -2, 0, 8] 1 3 (by decide) (by decide)⟩

/-- C5: on the array `[1,2,3,4,5]`, `Operation::ResultOf` returns the `int` 15 and
`BoolOperation::ResultOf` returns the `bool` `true`; `Operate(&op)` writes the line
`Result is an int: 15`, `Operate(&boolOp)` then writes the line `Result is a bool: true`, and
these two lines, in that order, are the output of `main`. -/
theorem main_output :
    Operation.ResultOf [1, 2, 3, 4, 5] 0 5 = .ok ⟨.int 15, [0, 1, 2, 3, 4]⟩ ∧
    BoolOperation.ResultOf [1, 2, 3, 4, 5] 0 5 = .ok ⟨.bool true, [0, 1, 2, 3, 4]⟩ ∧
    Operate op "" = .ok "Result is an int: 15\n" ∧
    Operate boolOp "Result is an int: 15\n" =
      .ok "Result is an int: 15\nResult is a bool: true\n" ∧
    main = .ok "Result is an int: 15\nResult is a bool: true\n" :=
  ⟨rfl, rfl, rfl, rfl, rfl⟩

/-- C10: for every range `[begin, end)` inside an array, both `Operation::ResultOf` and
`BoolOperation::ResultOf` return a value and no fault; the addresses they dereference are an
initial part of `begin, begin+1, ..., end-1` (at most one pass, no address twice); and any
iteration budget above `end - begin` gives the loops that same result. -/
theorem ResultOf_terminates (mem : List Int) (begin end_ : Nat)
    (hbe : begin ≤ end_) (hem : end_ ≤ mem.length) :
    (∃ r, Operation.ResultOf mem begin end_ = .ok r ∧
      r.trace <+: List.range' begin (end_ - begin) ∧ r.trace.length ≤ end_ - begin ∧
      ∀ fuel, end_ - begin < fuel → Operation.loop mem end_ fuel begin 0 [] = .ok r) ∧
    (∃ r, BoolOperation.ResultOf mem begin end_ = .ok r ∧
      r.trace <+: List.range' begin (end_ - begin) ∧ r.trace.length ≤ end_ - begin ∧
      ∀ fuel, end_ - begin < fuel → BoolOperation.loop mem end_ fuel begin [] = .ok r) := by
  have hex : examined (range mem begin end_) ≤ end_ - begin := by
    have := examined_le (range mem begin end_)
    rwa [range_length mem begin end_ hem] at this
  refine ⟨⟨_, Operation_ResultOf_eq mem begin end_ hbe hem, List.prefix_refl _, by simp, ?_⟩,
    ⟨_, BoolOperation_ResultOf_eq mem begin end_ hbe hem, natRange_prefix _ _ _ hex,
      by simpa using hex, ?_⟩⟩
  · intro fuel hf
    obtain ⟨n, rfl⟩ : ∃ n, end_ = begin + n := ⟨end_ - begin, by omega⟩
    rw [Operation_loop_spec mem n fuel begin 0 [] hem (by omega)]
    simp
  · intro fuel hf
    obtain ⟨n, rfl⟩ : ∃ n, end_ = begin + n := ⟨end_ - begin, by omega⟩
    rw [BoolOperation_loop_spec mem n fuel begin [] hem (by omega)]
    simp

theorem ResultOf_terminates_witness :
    (2 ≤ 5 ∧ 5 ≤ [3, 1, 4, -1, 5, 9].length) ∧
    (∃ r, Operation.ResultOf [3, 1, 4, -1, 5, 9] 2 5 = .ok r ∧
      r.trace <+: List.range' 2 (5 - 2) ∧ r.trace.length ≤ 5 - 2 ∧
      ∀ fuel, 5 - 2 < fuel → Operation.loop [3, 1, 4, -1, 5, 9] 5 fuel 2 0 [] = .ok r) ∧
    (∃ r, BoolOperation.ResultOf [3, 1, 4, -1, 5, 9] 2 5 = .ok r ∧
      r.trace <+: List.range' 2 (5 - 2) ∧ r.trace.length ≤ 5 - 2 ∧
      ∀ fuel, 5 - 2 < fuel → BoolOperation.loop [3, 1, 4, -1, 5, 9] 5 fuel 2 [] = .ok r) :=
  ⟨by decide, ResultOf_terminates [3, 1, 4, -1, 5, 9] 2 5 (by decide) (by decide)⟩

end Liskov

namespace Singleton

open Cpp

/-! ## The claims about `SIngleton/main.cpp` -/

theorem LimitCalls_spec (n : Nat) (p : Process) :
    (LimitCalls n p).1 = List.replicate n Loc.htb_limit ∧ (LimitCalls n p).2 = p := by
  induction n with
  | zero => exact ⟨rfl, rfl⟩
  | succ n ih =>
    obtain ⟨h1, h2⟩ := ih
    refine ⟨?_, ?_⟩
    · show (htb.Limit p).1 :: (LimitCalls n (htb.Limit p).2).1 = _
      rw [List.replicate_succ]
      exact congrArg (List.cons Loc.htb_limit) h1
    · exact h2

/-- C6: for all `int`s `a` and `b` whose sum fits in an `int`, `htb::sum(a, b)` returns exactly
`a + b`, whichever `htb` object it is called on; `sum(3, 4)` returns 7, and `7` is the text the
singleton program writes. -/
theorem htb_sum_exact (this that : htb) (a b : Int) (h : fitsInt (a + b)) :
    this.sum a b = a + b ∧ that.sum a b = this.sum a b ∧ this.sum 3 4 = 7 ∧
    run.map (fun p => p.cout) = .ok "7" :=
  ⟨wrapInt_of_fits h, rfl, rfl, rfl⟩

theorem htb_sum_exact_witness :
    fitsInt (2147483000 + (-12)) ∧
    (htb.mk.sum 2147483000 (-12) = 2147483000 + (-12) ∧
      htb.mk.sum 2147483000 (-12) = htb.mk.sum 2147483000 (-12) ∧ htb.mk.sum 3 4 = 7 ∧
      run.map (fun p => p.cout) = .ok "7") :=
  ⟨by decide, htb_sum_exact htb.mk htb.mk 2147483000 (-12) (by decide)⟩

/-- C7: `htb::sum` is commutative: `sum(a, b) == sum(b, a)` for all `a` and `b`. -/
theorem htb_sum_comm (this : htb) (a b : Int) : this.sum a b = this.sum b a := by
  simp [htb.sum, intAdd, add_comm]

/-- C8: in every state of the process, `htb::Limit()` returns the reference to the static
member `htb::limit` and leaves the state as it was; a second call returns the same reference,
as do all of any number of calls in succession; and once static initialization has run, that
reference designates the `htb` object constructed there. -/
theorem Limit_same_instance (p : Process) (n : Nat) :
    (htb.Limit p).1 = Loc.htb_limit ∧ (htb.Limit p).2 = p ∧
    (htb.Limit (htb.Limit p).2).1 = (htb.Limit p).1 ∧
    (LimitCalls n p).1.length = n ∧ (∀ r ∈ (LimitCalls n p).1, r = (htb.Limit p).1) ∧
    (LimitCalls n p).2 = p ∧
    (staticInit p).objects (htb.Limit (staticInit p)).1 = some htb.mk := by
  obtain ⟨h1, h2⟩ := LimitCalls_spec n p
  refine ⟨rfl, rfl, rfl, by simp [h1], ?_, h2, by simp [staticInit, htb.Limit]⟩
  intro r hr
  rw [h1] at hr
  exact List.eq_of_mem_replicate hr

end Singleton

namespace Liskov

open Cpp

/-! ## Short circuit of `BoolOperation::ResultOf` -/

theorem examined_append_nonpos (xs : List Int) (x : Int) (ys : List Int)
    (hxs : ∀ y ∈ xs, 0 < y) (hx : x ≤ 0) :
    examined (xs ++ x :: ys) = xs.length + 1 := by
  induction xs with
  | nil => simp [examined, hx]
  | cons a xs ih =>
    have ha : ¬ a ≤ 0 := by
      have := hxs a (by simp)
      omega
    have := ih (fun y hy => hxs y (by simp [hy]))
    simp [examined, ha, this]

theorem all_append_nonpos (xs : List Int) (x : Int) (ys : List Int) (hx : x ≤ 0) :
    (xs ++ x :: ys).all (fun y => decide (0 < y)) = false := by
  rw [List.all_eq_false]
  exact ⟨x, by simp, by simp; omega⟩

/-- C11: when the range `[begin, end)` reads `xs ++ [x] ++ ys` with every element of `xs`
positive and `x <= 0`, `BoolOperation::ResultOf` returns `false` after dereferencing exactly
the `|xs| + 1` addresses of `xs` and `x`; `ys` has no part in the result: with any other
sequence in its place, the empty one included, the run is the same. -/
theorem BoolOperation_short_circuit (mem : List Int) (begin end_ : Nat)
    (xs : List Int) (x : Int) (ys : List Int)
    (hbe : begin ≤ end_) (hem : end_ ≤ mem.length)
    (hr : range mem begin end_ = xs ++ [x] ++ ys)
    (hxs : ∀ y ∈ xs, 0 < y) (hx : x ≤ 0) :
    BoolOperation.ResultOf mem begin end_ =
      .ok ⟨.bool false, List.range' begin (xs.length + 1)⟩ ∧
    ∀ ys2 : List Int,
      BoolOperation.ResultOf (xs ++ [x] ++ ys2) 0 (xs ++ [x] ++ ys2).length =
        .ok ⟨.bool false, List.range' 0 (xs.length + 1)⟩ := by
  constructor
  · rw [BoolOperation_ResultOf_eq mem begin end_ hbe hem, hr, List.append_assoc,
      List.singleton_append, all_append_nonpos xs x ys hx,
      examined_append_nonpos xs x ys hxs hx]
  · intro ys2
    rw [BoolOperation_ResultOf_eq _ 0 _ (Nat.zero_le _) (Nat.le_refl _), range_full,
      List.append_assoc, List.singleton_append, all_append_nonpos xs x ys2 hx,
      examined_append_nonpos xs x ys2 hxs hx]

theorem BoolOperation_short_circuit_witness :
    (1 ≤ 6 ∧ 6 ≤ [9, 3, 1, 0, 5, -2].length ∧
      range [9, 3, 1, 0, 5, -2] 1 6 = [3, 1] ++ [0] ++ [5, -2]) ∧
    (BoolOperation.ResultOf [9, 3, 1, 0, 5, -2] 1 6 =
      .ok ⟨.bool false, List.range' 1 ([3, 1].length + 1)⟩ ∧
    ∀ ys2 : List Int,
      BoolOperation.ResultOf ([3, 1] ++ [0] ++ ys2) 0 ([3, 1] ++ [0] ++ ys2).length =
        .ok ⟨.bool false, List.range' 0 ([3, 1].length + 1)⟩) :=
  ⟨by decide,
    BoolOperation_short_circuit [9, 3, 1, 0, 5, -2] 1 6 [3, 1] 0 [5, -2]
      (by decide) (by decide) (by decide) (by decide) (by decide)⟩

/-! ## `Operate` -/

/-- Every `ReturnType` holds the `int` or the `bool` alternative. -/
theorem holds_alternative_exhaustive (v : ReturnType) :
    (holds_alternative_int v || holds_alternative_bool v) = true := by
  cases v <;> rfl

/-- What `Operate` appends to `cout`, by the result of the call. -/
theorem Operate_text (cout : String) (v : ReturnType) :
    (if holds_alternative_int v = true then
        (match get_int v with
          | .error e => Except.error e
          | .ok n => Except.ok (cout ++ "Result is an int: " ++ showInt n ++ "\n"))
      else if holds_alternative_bool v = true then
        (match get_bool v with
          | .error e => Except.error e
          | .ok b =>
            Except.ok (cout ++ "Result is a bool: " ++ (if b then "true" else "false") ++ "\n"))
      else Except.ok cout) = (Except.ok (cout ++ renderSpec v) : Except Fault String) := by
  cases v with
  | int n => simp [holds_alternative_int, get_int, renderSpec, String.append_assoc]
  | bool b =>
    cases b
    · simp only [holds_alternative_int, holds_alternative_bool, get_bool, renderSpec,
        String.append_assoc]
      rfl
    · simp only [holds_alternative_int, holds_alternative_bool, get_bool, renderSpec,
        String.append_assoc]
      rfl

/-- Three insertions in a row, each of which may throw. -/
theorem insert_chain {σ S : Type} (a : Except Fault S) (f g : S → Except Fault S) (self1 : σ) :
    (match a with
      | .error e => Except.error e
      | .ok c2 =>
        match f c2 with
        | .error e => Except.error e
        | .ok c3 =>
          match g c3 with
          | .error e => Except.error e
          | .ok c4 => Except.ok (c4, self1)) =
      ((a.bind fun c2 => (f c2).bind g).map fun c => (c, self1)) := by
  cases a with
  | error e => rfl
  | ok c2 =>
    show (match f c2 with
      | .error e => Except.error e
      | .ok c3 =>
        match g c3 with
        | .error e => Except.error e
        | .ok c4 => Except.ok (c4, self1)) = (((f c2).bind g).map fun c => (c, self1))
    cases f c2 with
    | error e => rfl
    | ok c3 =>
      show (match g c3 with
        | .error e => Except.error e
        | .ok c4 => Except.ok (c4, self1)) = ((g c3).map fun c => (c, self1))
      cases g c3 <;> rfl

/-- With the call of `ResultOf` on `[1,2,3,4,5]` returning `r` and leaving the object as
`self1` and the stream as `cout1`, `Operate` makes on `cout1` the insertions for `r` and leaves
the object as `self1`. -/
theorem Stateful_Operate_eq {σ S : Type} (lib : Stateful.OStream S)
    (func : Stateful.IOperation σ S) (self self1 : σ) (cout cout1 : S) (r : Run)
    (h : func.ResultOf self cout [1, 2, 3, 4, 5] 0 5 = .ok (r, self1, cout1)) :
    Stateful.Operate lib func self cout =
      (Stateful.insertLine lib cout1 r.value).map (fun c => (c, self1)) := by
  unfold Stateful.Operate
  simp only [h]
  obtain ⟨v, t⟩ := r
  cases v with
  | int n =>
    simp only [holds_alternative_int, get_int, Stateful.insertLine, if_true]
    exact insert_chain _ _ _ _
  | bool b =>
    cases b
    · simp only [holds_alternative_int, holds_alternative_bool, get_bool, Stateful.insertLine,
        if_true, Bool.false_eq_true, if_false]
      exact insert_chain _ _ _ _
    · simp only [holds_alternative_int, holds_alternative_bool, get_bool, Stateful.insertLine,
        if_true, Bool.false_eq_true, if_false]
      exact insert_chain _ _ _ _

/-- On a stream with text and number base, the insertions for a result append its line, the
`int` in the stream's base. -/
theorem insertLine_stdCout (c : Stateful.Cout) (v : ReturnType) :
    Stateful.insertLine Stateful.stdCout c v =
      .ok ⟨c.text ++ Stateful.renderIn c.base v, c.base⟩ := by
  cases v with
  | int n =>
    simp [Stateful.insertLine, Stateful.stdCout, Except.bind, Stateful.renderIn,
      String.append_assoc]
  | bool b =>
    cases b
    · simp only [Stateful.insertLine, Stateful.stdCout, Except.bind, Stateful.renderIn,
        String.append_assoc]
      rfl
    · simp only [Stateful.insertLine, Stateful.stdCout, Except.bind, Stateful.renderIn,
        String.append_assoc]
      rfl

/-- In base 10 the line for a result is the line of the specification. -/
theorem renderIn_dec (v : ReturnType) : Stateful.renderIn Stateful.Base.dec v = renderSpec v := by
  cases v with
  | int n => rfl
  | bool b => cases b <;> rfl

theorem renderIn_length_pos (base : Stateful.Base) (v : ReturnType) :
    0 < (Stateful.renderIn base v).length := by
  cases v with
  | int n =>
    have h1 : "\n".length = 1 := rfl
    simp only [Stateful.renderIn, String.length_append]
    omega
  | bool b => cases b <;> exact Nat.succ_pos _

/-- `Operate` on an object that does not use `std::cout`, on a stream in base 10, is the
`Operate` of `main`. -/
theorem Operate_ofPure (f : IOperation) (text : String) :
    (Stateful.Operate Stateful.stdCout (Stateful.ofPure f) () ⟨text, Stateful.Base.dec⟩).map
      (fun p => p.1.text) = Operate f text := by
  cases hf : f.ResultOf [1, 2, 3, 4, 5] 0 5 with
  | error e =>
    unfold Stateful.Operate Operate Stateful.ofPure
    simp [hf, Except.map]
  | ok r =>
    have hcall : (Stateful.ofPure f : Stateful.IOperation Unit Stateful.Cout).ResultOf ()
        ⟨text, Stateful.Base.dec⟩ [1, 2, 3, 4, 5] 0 5 =
        .ok (r, (), ⟨text, Stateful.Base.dec⟩) := by
      simp [Stateful.ofPure, hf]
    rw [Stateful_Operate_eq _ _ _ _ _ _ r hcall, insertLine_stdCout, renderIn_dec]
    unfold Operate
    simp only [hf]
    rw [Operate_text text r.value]
    rfl

/-- C12, as the code has it: for every `IOperation` object whose `ResultOf` returns on
`[1,2,3,4,5]`, `Operate` makes that one call and then, on `std::cout` as the call left it,
exactly the insertions of one line chosen by the tag of the result, leaving the object as the
call left it; every result holds one of the two alternatives, so none leads to no output.  On a
stream with text and number base the line is `Result is an int: N` with `N` in the base the
call left, or `Result is a bool: true` / `false`, and the text grows.  For an object that does
not use `std::cout`, on a stream in base 10, the output gains exactly the line of the
specification, and an object that logs its calls has logged exactly one more, on
`[1,2,3,4,5]`. -/
theorem Operate_renders {σ S : Type} (lib : Stateful.OStream S)
    (func : Stateful.IOperation σ S) (self self1 : σ) (cout cout1 : S) (r : Run)
    (h : func.ResultOf self cout [1, 2, 3, 4, 5] 0 5 = .ok (r, self1, cout1)) :
    Stateful.Operate lib func self cout =
      (Stateful.insertLine lib cout1 r.value).map (fun c => (c, self1)) ∧
    (∀ v : ReturnType, (holds_alternative_int v || holds_alternative_bool v) = true) ∧
    (∀ (c : Stateful.Cout) (v : ReturnType),
      Stateful.insertLine Stateful.stdCout c v =
        .ok ⟨c.text ++ Stateful.renderIn c.base v, c.base⟩ ∧
      Stateful.renderIn Stateful.Base.dec v = renderSpec v ∧
      c.text ++ Stateful.renderIn c.base v ≠ c.text) ∧
    (∀ (f : IOperation) (r2 : Run) (calls : List (List Int × Nat × Nat)) (text : String),
      f.ResultOf [1, 2, 3, 4, 5] 0 5 = .ok r2 →
      Operate f text = .ok (text ++ renderSpec r2.value) ∧
      Stateful.Operate Stateful.stdCout (Stateful.logged f) calls ⟨text, Stateful.Base.dec⟩ =
        .ok (⟨text ++ renderSpec r2.value, Stateful.Base.dec⟩,
          calls ++ [([1, 2, 3, 4, 5], 0, 5)])) := by
  refine ⟨Stateful_Operate_eq lib func self self1 cout cout1 r h,
    holds_alternative_exhaustive, ?_, ?_⟩
  · intro c v
    refine ⟨insertLine_stdCout c v, renderIn_dec v, ?_⟩
    intro hv
    have hlen := congrArg String.length hv
    rw [String.length_append] at hlen
    have := renderIn_length_pos c.base v
    omega
  · intro f r2 calls text hf
    constructor
    · unfold Operate
      simp only [hf]
      exact Operate_text text r2.value
    · have hcall : (Stateful.logged f :
          Stateful.IOperation (List (List Int × Nat × Nat)) Stateful.Cout).ResultOf calls
          ⟨text, Stateful.Base.dec⟩ [1, 2, 3, 4, 5] 0 5 =
          .ok (r2, calls ++ [([1, 2, 3, 4, 5], 0, 5)], ⟨text, Stateful.Base.dec⟩) := by
        simp [Stateful.logged, hf]
      rw [Stateful_Operate_eq _ _ _ _ _ _ r2 hcall, insertLine_stdCout, renderIn_dec]
      rfl

theorem Operate_renders_witness :
    Stateful.hexOp.ResultOf () ⟨"", Stateful.Base.dec⟩ [1, 2, 3, 4, 5] 0 5 =
        .ok (⟨.int 15, [0, 1, 2, 3, 4]⟩, (), ⟨"", Stateful.Base.hex⟩) ∧
    (Stateful.Operate Stateful.stdCout Stateful.hexOp () ⟨"", Stateful.Base.dec⟩ =
      (Stateful.insertLine Stateful.stdCout ⟨"", Stateful.Base.hex⟩
        (Run.mk (.int 15) [0, 1, 2, 3, 4]).value).map (fun c => (c, ())) ∧
    (∀ v : ReturnType, (holds_alternative_int v || holds_alternative_bool v) = true) ∧
    (∀ (c : Stateful.Cout) (v : ReturnType),
      Stateful.insertLine Stateful.stdCout c v =
        .ok ⟨c.text ++ Stateful.renderIn c.base v, c.base⟩ ∧
      Stateful.renderIn Stateful.Base.dec v = renderSpec v ∧
      c.text ++ Stateful.renderIn c.base v ≠ c.text) ∧
    (∀ (f : IOperation) (r2 : Run) (calls : List (List Int × Nat × Nat)) (text : String),
      f.ResultOf [1, 2, 3, 4, 5] 0 5 = .ok r2 →
      Operate f text = .ok (text ++ renderSpec r2.value) ∧
      Stateful.Operate Stateful.stdCout (Stateful.logged f) calls ⟨text, Stateful.Base.dec⟩ =
        .ok (⟨text ++ renderSpec r2.value, Stateful.Base.dec⟩,
          calls ++ [([1, 2, 3, 4, 5], 0, 5)]))) :=
  ⟨rfl, Operate_renders Stateful.stdCout Stateful.hexOp () () ⟨"", Stateful.Base.dec⟩
    ⟨"", Stateful.Base.hex⟩ ⟨.int 15, [0, 1, 2, 3, 4]⟩ rfl⟩

/-- C12 as stated fails: an `IOperation` that writes to `std::cout` before it returns 15 makes
`Operate` add two lines, and one that switches the stream to base 16 makes it write
`Result is an int: f`; so it is not the case that for every `IOperation` the output gains
exactly the one line `Result is an int: N`. -/
theorem Operate_renders_counterexample :
    Stateful.Operate Stateful.stdCout Stateful.chattyOp () ⟨"", Stateful.Base.dec⟩ =
      .ok (⟨"summing\nResult is an int: 15\n", Stateful.Base.dec⟩, ()) ∧
    Stateful.Operate Stateful.stdCout Stateful.hexOp () ⟨"", Stateful.Base.dec⟩ =
      .ok (⟨"Result is an int: f\n", Stateful.Base.hex⟩, ()) ∧
    renderSpec (.int 15) = "Result is an int: 15\n" ∧
    ¬ (∀ (func : Stateful.IOperation Unit Stateful.Cout) (c c1 : Stateful.Cout) (r : Run),
        func.ResultOf () c [1, 2, 3, 4, 5] 0 5 = .ok (r, (), c1) →
        ∃ c2 : Stateful.Cout,
          Stateful.Operate Stateful.stdCout func () c = .ok (c2, ()) ∧
          c2.text = c.text ++ renderSpec r.value) := by
  refine ⟨rfl, rfl, rfl, ?_⟩
  intro H
  obtain ⟨c2, h1, h2⟩ := H Stateful.hexOp ⟨"", Stateful.Base.dec⟩ ⟨"", Stateful.Base.hex⟩
    ⟨.int 15, [0, 1, 2, 3, 4]⟩ rfl
  have hrun : Stateful.Operate Stateful.stdCout Stateful.hexOp () ⟨"", Stateful.Base.dec⟩ =
      .ok (⟨"Result is an int: f\n", Stateful.Base.hex⟩, ()) := rfl
  rw [hrun] at h1
  have hc : c2 = ⟨"Result is an int: f\n", Stateful.Base.hex⟩ := by
    injection h1 with h1
    injection h1 with h1
    exact h1.symm
  rw [hc] at h2
  exact absurd h2 (by decide)

end Liskov

namespace Cpp

/-! ## Wraparound -/

theorem wrapInt_fits (z : Int) : fitsInt (wrapInt z) := by
  unfold fitsInt INT_MIN INT_MAX wrapInt
  omega

theorem wrapInt_modEq (z : Int) : wrapInt z ≡ z [ZMOD 4294967296] := by
  unfold Int.ModEq wrapInt
  omega

theorem wrapInt_add_left (a b : Int) : wrapInt (wrapInt a + b) = wrapInt (a + b) := by
  unfold wrapInt
  omega

theorem wrapInt_add_both (a b : Int) : wrapInt (wrapInt a + wrapInt b) = wrapInt (a + b) := by
  unfold wrapInt
  omega

/-- The value that fits in an `int` and is congruent to `z` modulo `2^32` is `wrapInt z`. -/
theorem wrapInt_unique (z w : Int) (hw : fitsInt w) (hc : w ≡ z [ZMOD 4294967296]) :
    w = wrapInt z := by
  unfold fitsInt INT_MIN INT_MAX at hw
  unfold Int.ModEq at hc
  unfold wrapInt
  omega

/-- Adding up from left to right with `int` addition gives the wrapped exact sum. -/
theorem foldl_intAdd_wrap (xs : List Int) (a : Int) :
    xs.foldl intAdd (wrapInt a) = wrapInt (a + xs.sum) := by
  induction xs generalizing a with
  | nil => simp
  | cons x xs ih =>
    rw [List.foldl_cons, List.sum_cons]
    show xs.foldl intAdd (wrapInt (wrapInt a + x)) = _
    rw [wrapInt_add_left, ih, add_assoc]

theorem foldl_intAdd_zero (xs : List Int) : xs.foldl intAdd 0 = wrapInt xs.sum := by
  have h := foldl_intAdd_wrap xs 0
  have h0 : wrapInt 0 = 0 := rfl
  rw [h0, zero_add] at h
  exact h

end Cpp

namespace Liskov

open Cpp

/-! ## The two strategies on a whole sequence -/

theorem Operation_ResultOf_list (xs : List Int) :
    Operation.ResultOf xs 0 xs.length =
      .ok ⟨.int (wrapInt xs.sum), List.range' 0 xs.length⟩ := by
  rw [Operation_ResultOf_eq xs 0 xs.length (Nat.zero_le _) (Nat.le_refl _), range_full,
    foldl_intAdd_zero]
  rfl

theorem BoolOperation_ResultOf_list (xs : List Int) :
    BoolOperation.ResultOf xs 0 xs.length =
      .ok ⟨.bool (xs.all (fun x => decide (0 < x))), List.range' 0 (examined xs)⟩ := by
  rw [BoolOperation_ResultOf_eq xs 0 xs.length (Nat.zero_le _) (Nat.le_refl _), range_full]

theorem all_positive_perm (xs ys : List Int) (h : xs.Perm ys) :
    xs.all (fun x => decide (0 < x)) = ys.all (fun x => decide (0 < x)) := by
  rw [Bool.eq_iff_iff, List.all_eq_true, List.all_eq_true]
  exact ⟨fun hx y hy => hx y (h.mem_iff.mpr hy), fun hy x hx => hy x (h.mem_iff.mp hx)⟩

/-- C13: for every sequence `xs` and every permutation `ys` of it, `Operation::ResultOf`
returns the same `int` on `xs` and on `ys` (`int` addition wrapping modulo 2^32), and
`BoolOperation::ResultOf` returns the same `bool` on `xs` and on `ys`. -/
theorem ResultOf_perm (xs ys : List Int) (h : xs.Perm ys) :
    (∃ (v : Int) (t1 t2 : List Nat),
      Operation.ResultOf xs 0 xs.length = .ok ⟨.int v, t1⟩ ∧
      Operation.ResultOf ys 0 ys.length = .ok ⟨.int v, t2⟩) ∧
    (∃ (b : Bool) (t1 t2 : List Nat),
      BoolOperation.ResultOf xs 0 xs.length = .ok ⟨.bool b, t1⟩ ∧
      BoolOperation.ResultOf ys 0 ys.length = .ok ⟨.bool b, t2⟩) := by
  refine ⟨⟨_, _, List.range' 0 ys.length, Operation_ResultOf_list xs, ?_⟩,
    ⟨_, _, List.range' 0 (examined ys), BoolOperation_ResultOf_list xs, ?_⟩⟩
  · rw [Operation_ResultOf_list ys, h.sum_eq]
  · rw [BoolOperation_ResultOf_list ys, all_positive_perm xs ys h]

theorem ResultOf_perm_witness :
    List.Perm [2147483647, 5, -3, 0] [0, 5, 2147483647, -3] ∧
    (∃ (v : Int) (t1 t2 : List Nat),
      Operation.ResultOf [2147483647, 5, -3, 0] 0 [2147483647, 5, -3, 0].length =
        .ok ⟨.int v, t1⟩ ∧
      Operation.ResultOf [0, 5, 2147483647, -3] 0 [0, 5, 2147483647, -3].length =
        .ok ⟨.int v, t2⟩) ∧
    (∃ (b : Bool) (t1 t2 : List Nat),
      BoolOperation.ResultOf [2147483647, 5, -3, 0] 0 [2147483647, 5, -3, 0].length =
        .ok ⟨.bool b, t1⟩ ∧
      BoolOperation.ResultOf [0, 5, 2147483647, -3] 0 [0, 5, 2147483647, -3].length =
        .ok ⟨.bool b, t2⟩) :=
  ⟨by decide, ResultOf_perm [2147483647, 5, -3, 0] [0, 5, 2147483647, -3] (by decide)⟩

/-- C14: for all sequences `xs` and `ys`, the `int` `Operation::ResultOf` returns on
`xs ++ ys` is the `int` sum (wrapping modulo 2^32) of the ones it returns on `xs` and on `ys`,
and the `bool` `BoolOperation::ResultOf` returns on `xs ++ ys` is the conjunction of the ones
it returns on `xs` and on `ys`. -/
theorem ResultOf_append (xs ys : List Int) :
    (∃ (a b : Int) (ta tb tc : List Nat),
      Operation.ResultOf xs 0 xs.length = .ok ⟨.int a, ta⟩ ∧
      Operation.ResultOf ys 0 ys.length = .ok ⟨.int b, tb⟩ ∧
      Operation.ResultOf (xs ++ ys) 0 (xs ++ ys).length = .ok ⟨.int (intAdd a b), tc⟩) ∧
    (∃ (p q : Bool) (ta tb tc : List Nat),
      BoolOperation.ResultOf xs 0 xs.length = .ok ⟨.bool p, ta⟩ ∧
      BoolOperation.ResultOf ys 0 ys.length = .ok ⟨.bool q, tb⟩ ∧
      BoolOperation.ResultOf (xs ++ ys) 0 (xs ++ ys).length = .ok ⟨.bool (p && q), tc⟩) := by
  refine ⟨⟨_, _, _, _, List.range' 0 (xs ++ ys).length, Operation_ResultOf_list xs,
      Operation_ResultOf_list ys, ?_⟩,
    ⟨_, _, _, _, List.range' 0 (examined (xs ++ ys)), BoolOperation_ResultOf_list xs,
      BoolOperation_ResultOf_list ys, ?_⟩⟩
  · rw [Operation_ResultOf_list (xs ++ ys), List.sum_append]
    unfold intAdd
    rw [wrapInt_add_both]
  · rw [BoolOperation_ResultOf_list (xs ++ ys), List.all_append]

/-- C15: with `int` addition wrapping modulo 2^32, `Operation::ResultOf` on every range inside
an array returns the one value that is congruent to the exact sum of the elements modulo 2^32
and lies in `[-2^31, 2^31 - 1]`, and `htb::sum(a, b)` returns the one such value for `a + b`;
each is the exact sum whenever the exact sum fits in an `int`. -/
theorem ResultOf_wraparound (mem : List Int) (begin end_ : Nat)
    (hbe : begin ≤ end_) (hem : end_ ≤ mem.length) (this : Singleton.htb) (a b : Int) :
    (∃ v : Int,
      Operation.ResultOf mem begin end_ = .ok ⟨.int v, List.range' begin (end_ - begin)⟩ ∧
      v ≡ (range mem begin end_).sum [ZMOD 4294967296] ∧ fitsInt v ∧
      (∀ w : Int, fitsInt w → w ≡ (range mem begin end_).sum [ZMOD 4294967296] → w = v) ∧
      (fitsInt (range mem begin end_).sum → v = (range mem begin end_).sum)) ∧
    (this.sum a b ≡ a + b [ZMOD 4294967296] ∧ fitsInt (this.sum a b) ∧
      (∀ w : Int, fitsInt w → w ≡ a + b [ZMOD 4294967296] → w = this.sum a b) ∧
      (fitsInt (a + b) → this.sum a b = a + b)) := by
  refine ⟨⟨wrapInt (range mem begin end_).sum, ?_, wrapInt_modEq _, wrapInt_fits _,
      fun w hw hc => wrapInt_unique _ w hw hc, fun hf => wrapInt_of_fits hf⟩,
    ⟨wrapInt_modEq _, wrapInt_fits _, fun w hw hc => wrapInt_unique _ w hw hc,
      fun hf => wrapInt_of_fits hf⟩⟩
  rw [Operation_ResultOf_eq mem begin end_ hbe hem, foldl_intAdd_zero]

theorem ResultOf_wraparound_witness :
    (0 ≤ 2 ∧ 2 ≤ [2147483647, 1, 5].length) ∧
    ((∃ v : Int,
      Operation.ResultOf [2147483647, 1, 5] 0 2 = .ok ⟨.int v, List.range' 0 (2 - 0)⟩ ∧
      v ≡ (range [2147483647, 1, 5] 0 2).sum [ZMOD 4294967296] ∧ fitsInt v ∧
      (∀ w : Int, fitsInt w →
        w ≡ (range [2147483647, 1, 5] 0 2).sum [ZMOD 4294967296] → w = v) ∧
      (fitsInt (range [2147483647, 1, 5] 0 2).sum →
        v = (range [2147483647, 1, 5] 0 2).sum)) ∧
    (Singleton.htb.mk.sum 2147483647 1 ≡ 2147483647 + 1 [ZMOD 4294967296] ∧
      fitsInt (Singleton.htb.mk.sum 2147483647 1) ∧
      (∀ w : Int, fitsInt w → w ≡ 2147483647 + 1 [ZMOD 4294967296] →
        w = Singleton.htb.mk.sum 2147483647 1) ∧
      (fitsInt (2147483647 + 1) → Singleton.htb.mk.sum 2147483647 1 = 2147483647 + 1))) :=
  ⟨by decide,
    ResultOf_wraparound [2147483647, 1, 5] 0 2 (by decide) (by decide) Singleton.htb.mk
      2147483647 1⟩

end Liskov
